import Mathlib

/-!
Verification of the distributed-optimizer sharding core
(`megatron/optimizer/distrib_optimizer.py`).

The Python integers are embedded as `Int` (Python ints are unbounded and
signed), tensors as `List Int` of their flattened values, and Python dicts
as insertion-ordered association lists.  Functions that can raise are
embedded with `Except`/`Option`, or return the mutated-so-far state paired
with an optional error when the source mutates state before raising.
-/

/-- `Range` from `distrib_optimizer.py`: a half-open interval.  The source
stores `start`, `end` and `size = end - start`; `end` is a Lean keyword, so
the field is called `stop`, and `size` (always derived from the other two
fields in the source constructor) is a function.  The constructor performs
no validation, exactly as the Python `__init__`. -/
structure Range where
  start : Int
  stop : Int
deriving DecidableEq, Repr

/-- `self.size = end - start` computed by `Range.__init__`. -/
def Range.size (r : Range) : Int := r.stop - r.start

/-- `Range.normalize(start)`: `Range(start, start + self.size)`.  The Python
default argument is `start = 0`; callers written `r.normalize()` are
embedded as `r.normalize 0`. -/
def Range.normalize (r : Range) (s : Int) : Range := ⟨s, s + r.size⟩

/-- `max_gbuf_range_size = int(math.ceil(gbuf_size / data_parallel_world_size))`
(`build_model_gbuf_range`).  Modelled as exact ceiling division on `Nat`. -/
def maxGbufRangeSize (gbufSize W : Nat) : Nat := (gbufSize + W - 1) / W

/-- The world range of data-parallel rank `r` computed in
`build_model_gbuf_range`:
`gbuf_world_start = r * max_gbuf_range_size`,
`gbuf_world_end = min(gbuf_size, gbuf_world_start + max_gbuf_range_size)`. -/
def gbufWorldShard (gbufSize W r : Nat) : Range :=
  ⟨(r : Int) * maxGbufRangeSize gbufSize W,
   min (gbufSize : Int) ((r : Int) * maxGbufRangeSize gbufSize W + maxGbufRangeSize gbufSize W)⟩

/-- `gbuf_world_all_ranges` from `build_model_gbuf_range`: one world range
per data-parallel rank, in rank order. -/
def gbufWorldAllRanges (gbufSize W : Nat) : List Range :=
  (List.range W).map (gbufWorldShard gbufSize W)

/-- One value of `model._grad_buffer_param_index_map[dtype]`:
the triple `(param_world_order, param_world_start, param_world_end)`. -/
structure ParamWorldIndex where
  world_order : Nat
  world_start : Int
  world_end : Int
deriving DecidableEq, Repr

/-- One value of the `param_range_map` built by
`build_model_gbuf_param_range_map`. -/
structure ParamRangeEntry where
  gbuf_world_order : Nat
  gbuf_world : Range
  gbuf_local : Range
  param : Range
deriving DecidableEq, Repr

/-- The body of the loop of `build_model_gbuf_param_range_map` for one
parameter: computes `param_local_start/end` and, when
`param_local_end > param_local_start`, the three ranges; otherwise the
parameter is skipped (`none`). -/
def buildParamRangeEntry (gbufWorldRange : Range) (pwi : ParamWorldIndex) :
    Option ParamRangeEntry :=
  let param_local_start := max 0 (pwi.world_start - gbufWorldRange.start)
  let param_local_end := min gbufWorldRange.size (pwi.world_end - gbufWorldRange.start)
  if param_local_start < param_local_end then
    let param_local_range : Range := ⟨param_local_start, param_local_end⟩
    let param_world_range := param_local_range.normalize
      (param_local_start + gbufWorldRange.start)
    let sub_param_start := max 0 (gbufWorldRange.start - pwi.world_start)
    let sub_param_range := param_local_range.normalize sub_param_start
    some { gbuf_world_order := pwi.world_order, gbuf_world := param_world_range,
           gbuf_local := param_local_range, param := sub_param_range }
  else none

/-- `build_model_gbuf_param_range_map`: the insertion-ordered map
`param -> range entry` over the buffer's parameter index map (parameters
identified by a numeric id standing for the tensor reference). -/
def build_model_gbuf_param_range_map (indexMap : List (Nat × ParamWorldIndex))
    (gbufWorldRange : Range) : List (Nat × ParamRangeEntry) :=
  indexMap.filterMap fun x => (buildParamRangeEntry gbufWorldRange x.2).map (x.1, ·)

/-- The dictionary returned by `build_model_gbuf_range` for one
(model, dtype) buffer on rank `rank` of world size `W`. -/
structure GbufRangeData where
  local_range : Range
  world : Range
  world_all : List Range
  param_map : List (Nat × ParamRangeEntry)
  max_range_size : Nat
deriving DecidableEq, Repr

/-- `build_model_gbuf_range` (the pure index computation; the grad buffer
contributes only its element count `gbufSize`). -/
def build_model_gbuf_range (indexMap : List (Nat × ParamWorldIndex))
    (gbufSize rank W : Nat) : GbufRangeData :=
  let world := gbufWorldShard gbufSize W rank
  { local_range := world.normalize 0
    world := world
    world_all := gbufWorldAllRanges gbufSize W
    param_map := build_model_gbuf_param_range_map indexMap world
    max_range_size := maxGbufRangeSize gbufSize W }

/-- The sequence of `gbuf_world_order` values that `state_dict` emits for
one (model, dtype) buffer: `state_dict` walks
`gbuf_range_map["param_map"].items()` in dict insertion order and reads
`param_range_map["gbuf_world_order"]` of each record
(`state_dict`, the `shard_state_dicts` loop). -/
def state_dict_world_orders (indexMap : List (Nat × ParamWorldIndex))
    (gbufWorldRange : Range) : List Nat :=
  (build_model_gbuf_param_range_map indexMap gbufWorldRange).map (·.2.gbuf_world_order)

/-- The `param` slices that `build_model_gbuf_param_range_map` produces for
one parameter across all `W` participants, each participant taking its own
world shard, in ascending rank order. -/
def paramSlices (N W : Nat) (pwi : ParamWorldIndex) : List Range :=
  (gbufWorldAllRanges N W).filterMap fun L =>
    (buildParamRangeEntry L pwi).map (·.param)

/-- `coversExactly a b l` holds when the ranges of `l`, in order, tile the
interval `[a, b)` exactly: each range starts where the previous one
stopped, is nonempty, and the last one stops at `b`. -/
def coversExactly : Int → Int → List Range → Bool
  | a, b, [] => a == b
  | a, b, r :: rs => r.start == a && decide (a < r.stop) && coversExactly r.stop b rs

/-- Progress marker for the coverage proof: the world position up to which
the parameter `[ws, we)` has been covered after the shards of ranks
`0, …, r-1` were visited. -/
def coverMark (N W : Nat) (ws we : Int) (r : Nat) : Int :=
  max ws (min we (min ((r : Int) * maxGbufRangeSize N W) (N : Int)))

/-- Python `enumerate` starting at `i`, as used by
`{i: d for i, d in enumerate(optim_state_dicts)}` in `load_state_dict`. -/
def enumerateFrom (i : Nat) : List α → List (Nat × α)
  | [] => []
  | d :: ds => (i, d) :: enumerateFrom (i + 1) ds

/-- One element of `state_dict()["optimizer"]["state"]`, i.e. one
`shard_state_dicts` record.  `param` is the flattened fp32 master shard,
`optim` an opaque token for the inner optimizer state of that shard. -/
structure ShardStateDict where
  world_order : Nat
  state_order : Nat
  group_index : Nat
  group_order : Nat
  param_range_map : ParamRangeEntry
  param : List Int
  optim : Nat
deriving DecidableEq, Repr

/-- `self.shard_fp32_from_float16_groups`: group -> position -> flattened
master-shard values. -/
abbrev ShardGroups := List (List (List Int))

/-- Failures observable while loading: an out-of-bounds
`shard_fp32_from_float16_groups[group_index][group_order]` access
(Python `IndexError`), or a `torch` size mismatch raised by
`.data.copy_` (Python `RuntimeError`). -/
inductive LoadErr
  | indexError
  | copySizeMismatch
deriving DecidableEq, Repr

/-- Read `groups[i][j]`. -/
def getAt (g : ShardGroups) (i j : Nat) : Option (List Int) :=
  g[i]?.bind fun row => row[j]?

/-- Overwrite `groups[i][j]` with `v` (no-op when out of bounds; callers
check bounds via `getAt` first). -/
def setAt (g : ShardGroups) (i j : Nat) (v : List Int) : ShardGroups :=
  match g[i]? with
  | some row => g.set i (row.set j v)
  | none => g

/-- `self.shard_fp32_from_float16_groups[gi][go].data.copy_(src)`:
fails with `IndexError` when the target does not exist; `torch.copy_`
requires the source to have the destination's element count, except that a
single-element source broadcasts. -/
def copyInto (g : ShardGroups) (i j : Nat) (src : List Int) :
    Except LoadErr ShardGroups :=
  match getAt g i j with
  | none => .error .indexError
  | some dst =>
    if src.length = dst.length then .ok (setAt g i j src)
    else
      match src with
      | [v] => .ok (setAt g i j (List.replicate dst.length v))
      | _ => .error .copySizeMismatch

/-- The record loop of `load_state_dict`: for each record, first append
`(state_order, optim)` to `optim_state_dicts`, then copy the saved master
param into `shard_fp32_from_float16_groups[group_index][group_order]`.
An exception stops the loop with the groups mutated so far. -/
def loadLoop : List ShardStateDict → ShardGroups → List (Nat × Nat) →
    ShardGroups × List (Nat × Nat) × Option LoadErr
  | [], g, acc => (g, acc, none)
  | r :: rs, g, acc =>
    let acc' := acc ++ [(r.state_order, r.optim)]
    match copyInto g r.group_index r.group_order r.param with
    | .error e => (g, acc', some e)
    | .ok g' => loadLoop rs g' acc'

/-- The ordering key of `optim_state_dicts.sort(key=lambda d: d[0])`. -/
def stateKeyLe (a b : Nat × Nat) : Prop := a.1 ≤ b.1

instance : DecidableRel stateKeyLe := fun a b => Nat.decLe a.1 b.1

instance : IsTotal (Nat × Nat) stateKeyLe := ⟨fun a b => Nat.le_total a.1 b.1⟩

instance : IsTrans (Nat × Nat) stateKeyLe := ⟨fun _ _ _ h1 h2 => Nat.le_trans h1 h2⟩

/-- Observable outcome of `load_state_dict`: the master-shard groups after
the copies, the `state` mapping handed to `self.optimizer.load_state_dict`
as key/value pairs (empty when an exception fired before the handoff), and
the exception if one fired. -/
structure LoadResult where
  groups : ShardGroups
  baseState : List (Nat × Nat)
  err : Option LoadErr
deriving DecidableEq, Repr

/-- `load_state_dict`: run the record loop; on success sort the collected
`(state_order, optim)` pairs by `state_order` and hand the base optimizer
`{i: d for i, d in enumerate(...)}`. -/
def load_state_dict (g : ShardGroups) (records : List ShardStateDict) : LoadResult :=
  match loadLoop records g [] with
  | (g', acc, none) =>
    { groups := g'
      baseState := enumerateFrom 0 ((List.insertionSort stateKeyLe acc).map Prod.snd)
      err := none }
  | (g', _, some e) => { groups := g', baseState := [], err := some e }

/-- The `model_param.type()` strings discriminated by
`build_model_and_main_param_groups`; `cudaDouble` and `cudaLong` stand for
the unsupported element types. -/
inductive PyTensorType
  | cudaHalf
  | cudaBFloat16
  | cudaFloat
  | cudaDouble
  | cudaLong
deriving DecidableEq, Repr

/-- A model parameter: its identity and element type. -/
structure ModelParam where
  pid : Nat
  ttype : PyTensorType
deriving DecidableEq, Repr

/-- A shard tensor created by `build_model_and_main_param_groups`:
either a flat view of model parameter `pid` restricted to `r`
(`model_param.view(-1)[param_range.start:param_range.end]`), or the
freshly allocated fp32 master (`shard_model_param.clone().float()`). -/
inductive ShardTensor
  | view (pid : Nat) (r : Range)
  | master (pid : Nat) (r : Range)
deriving DecidableEq, Repr

/-- The model parameter a shard tensor was created from. -/
def ShardTensor.sourceParam : ShardTensor → Nat
  | .view p _ => p
  | .master p _ => p

/-- The only failure of `build_model_and_main_param_groups`: its `else`
branch executes `'...'.format(param.type())`, but no name `param` is bound
in that scope (the loop variable is `model_param`), so Python raises
`NameError` before the intended `TypeError` is built, and the received
type is never reported. -/
inductive BuildErr
  | nameErrorParamUnbound
deriving DecidableEq, Repr

/-- The per-group lists built by `build_model_and_main_param_groups`:
(model_float16, model_fp32, shard_float16, shard_fp32,
shard_fp32_from_float16), in parameter iteration order. -/
def buildGroup (paramRange : Nat → Range) :
    List ModelParam →
    Except BuildErr (List ModelParam × List ModelParam × List ShardTensor ×
      List ShardTensor × List ShardTensor)
  | [] => .ok ([], [], [], [], [])
  | p :: ps =>
    match p.ttype with
    | .cudaHalf =>
      match buildGroup paramRange ps with
      | .error e => .error e
      | .ok (mf16, mf32, sf16, sf32, sf32f16) =>
        .ok (p :: mf16, mf32, .view p.pid (paramRange p.pid) :: sf16, sf32,
          .master p.pid (paramRange p.pid) :: sf32f16)
    | .cudaBFloat16 =>
      match buildGroup paramRange ps with
      | .error e => .error e
      | .ok (mf16, mf32, sf16, sf32, sf32f16) =>
        .ok (p :: mf16, mf32, .view p.pid (paramRange p.pid) :: sf16, sf32,
          .master p.pid (paramRange p.pid) :: sf32f16)
    | .cudaFloat =>
      match buildGroup paramRange ps with
      | .error e => .error e
      | .ok (mf16, mf32, sf16, sf32, sf32f16) =>
        .ok (mf16, p :: mf32, sf16, .view p.pid (paramRange p.pid) :: sf32, sf32f16)
    | _ => .error .nameErrorParamUnbound

/-- Result of `build_model_and_main_param_groups`.  `opt_param_groups`
models the rewritten `group_range["orig_group"]["params"]` of each
surviving group: `[*shard_fp32_params_this_group,
*shard_fp32_from_float16_params_this_group]`. -/
structure BuildResult where
  model_float16_groups : List (List ModelParam)
  model_fp32_groups : List (List ModelParam)
  shard_float16_groups : List (List ShardTensor)
  shard_fp32_groups : List (List ShardTensor)
  shard_fp32_from_float16_groups : List (List ShardTensor)
  opt_param_groups : List (List ShardTensor)
deriving DecidableEq, Repr

/-- `build_model_and_main_param_groups` over the surviving group ranges.
`paramRange` is the lookup
`model_gbuf_ranges[model_index][dtype]["param_map"][model_param]["param"]`. -/
def build_model_and_main_param_groups (paramRange : Nat → Range) :
    List (List ModelParam) → Except BuildErr BuildResult
  | [] => .ok ⟨[], [], [], [], [], []⟩
  | g :: gs =>
    match buildGroup paramRange g with
    | .error e => .error e
    | .ok (mf16, mf32, sf16, sf32, sf32f16) =>
      match build_model_and_main_param_groups paramRange gs with
      | .error e => .error e
      | .ok rest =>
        .ok ⟨mf16 :: rest.model_float16_groups, mf32 :: rest.model_fp32_groups,
          sf16 :: rest.shard_float16_groups, sf32 :: rest.shard_fp32_groups,
          sf32f16 :: rest.shard_fp32_from_float16_groups,
          (sf32 ++ sf32f16) :: rest.opt_param_groups⟩

/-- `world_param_group_map[param]`: the index of the parameter group
containing `param` (`build_optimizer_group_ranges`, first loop). -/
def groupIndexOf (paramGroups : List (List ModelParam)) (p : ModelParam) : Option Nat :=
  paramGroups.findIdx? fun g => g.contains p

/-- `build_optimizer_group_ranges`: walking the locally-owned parameters in
gbuf-range iteration order, append each to its (original) group's list and
record `(group_index, position)` in `local_param_group_map`; finally drop
("squeeze") groups that retained no parameter, each kept group carrying the
index of its `orig_group`.  Returns
`(local_param_group_map, group_ranges)`. -/
def build_optimizer_group_ranges (paramGroups : List (List ModelParam))
    (localParams : List ModelParam) :
    List (ModelParam × Nat × Nat) × List (Nat × List ModelParam) :=
  let step := fun (st : List (List ModelParam) × List (ModelParam × Nat × Nat)) p =>
    match groupIndexOf paramGroups p with
    | none => st
    | some gi =>
      let cur := st.1.getD gi []
      (st.1.set gi (cur ++ [p]), st.2 ++ [(p, gi, cur.length)])
  let built := localParams.foldl step (paramGroups.map fun _ => [], [])
  (built.2, (enumerateFrom 0 built.1).filter fun x => !x.2.isEmpty)

/-- The constructor pipeline that produces `model_param_group_index_map`
and the final `self.optimizer.param_groups` parameter lists: group ranges
are built (and squeezed) first, then
`build_model_and_main_param_groups` rewrites each surviving group. -/
def distributedOptimizerParamGroups (paramGroups : List (List ModelParam))
    (localParams : List ModelParam) (paramRange : Nat → Range) :
    Except BuildErr (List (ModelParam × Nat × Nat) × List (List ShardTensor)) :=
  let (m, groupRanges) := build_optimizer_group_ranges paramGroups localParams
  (build_model_and_main_param_groups paramRange (groupRanges.map (·.2))).map
    fun res => (m, res.opt_param_groups)

/-! Helper lemmas. -/

/-- `max_gbuf_range_size` is the exact ceiling of `gbuf_size / W`:
`W * s` is the least multiple of `W` that is `≥ N`. -/
theorem maxGbufRangeSize_bounds (N W : Nat) (hW : 0 < W) :
    N ≤ W * maxGbufRangeSize N W ∧ W * maxGbufRangeSize N W < N + W := by
  unfold maxGbufRangeSize
  have h1 := Nat.div_add_mod (N + W - 1) W
  have h2 := Nat.mod_lt (N + W - 1) hW
  omega

/-- The world shards are ordered: an earlier rank's shard stops no later
than a later rank's shard starts. -/
theorem gbufWorldShard_stop_le_start (N W : Nat) {r1 r2 : Nat} (h : r1 < r2) :
    (gbufWorldShard N W r1).stop ≤ (gbufWorldShard N W r2).start := by
  have hmul : (r1 + 1) * maxGbufRangeSize N W ≤ r2 * maxGbufRangeSize N W :=
    Nat.mul_le_mul_right _ h
  unfold gbufWorldShard
  zify at hmul
  have hr : ((r1 : Int) + 1) * maxGbufRangeSize N W =
      (r1 : Int) * maxGbufRangeSize N W + maxGbufRangeSize N W := by ring
  simp only
  omega

/-- Sum of `f (r+1) - f r` over `r < n` telescopes. -/
theorem telescopeSum (f : Nat → Int) (n : Nat) :
    (((List.range n).map fun r => f (r + 1) - f r).sum) = f n - f 0 := by
  induction n with
  | zero => simp
  | succ n ih =>
    rw [List.range_succ, List.map_append, List.sum_append]
    simp [ih]

/-! Claim theorems. -/

/-- C8, amended: `Range` construction never validates its arguments.  For
every pair `(start, end)` — including `end < start` — it succeeds and
yields `size = end - start` (negative when `end < start`); `normalize(o)`
returns `Range(o, o + size)`.  No `InvalidRange` failure exists in the
source. -/
theorem range_construction_total (s e : Int) :
    (Range.mk s e).size = e - s ∧
    ∀ o : Int, (Range.mk s e).normalize o = Range.mk o (o + (e - s)) :=
  ⟨rfl, fun _ => rfl⟩

/-- C8 counterexample: the claim says construction fails with
`InvalidRange` when `end < start`; instead `Range(5, 3)` is constructed
successfully, with the (spec-violating) negative size `-2`, and even
normalizes. -/
theorem range_construction_counterexample :
    (Range.mk 5 3).size = -2 ∧ (Range.mk 5 3).normalize 0 = Range.mk 0 (-2) :=
  ⟨rfl, rfl⟩

/-- C2: three-way map invariants.  For a parameter retained by
`build_model_gbuf_param_range_map` on rank `r`'s shard `L`, with the
parameter's world range inside `[0, N)` and of length `numel`:
the three ranges have equal positive sizes, `gbuf_world ⊆ L`, and
`param ⊆ [0, numel)`. -/
theorem three_way_map_invariants (N W r : Nat) (pwi : ParamWorldIndex)
    (numel : Int) (entry : ParamRangeEntry)
    (hr : r < W)
    (h0 : 0 ≤ pwi.world_start) (hN : pwi.world_end ≤ (N : Int))
    (hn : pwi.world_end - pwi.world_start = numel)
    (heq : buildParamRangeEntry (gbufWorldShard N W r) pwi = some entry) :
    entry.gbuf_world.size = entry.gbuf_local.size ∧
    entry.gbuf_local.size = entry.param.size ∧
    0 < entry.param.size ∧
    (gbufWorldShard N W r).start ≤ entry.gbuf_world.start ∧
    entry.gbuf_world.stop ≤ (gbufWorldShard N W r).stop ∧
    0 ≤ entry.param.start ∧ entry.param.stop ≤ numel := by
  simp only [buildParamRangeEntry] at heq
  split at heq
  case isFalse => exact absurd heq (by simp)
  case isTrue hlt =>
    injection heq with heq
    subst heq
    simp only [gbufWorldShard, Range.size, Range.normalize] at *
    refine ⟨by omega, by omega, by omega, by omega, by omega, by omega, by omega⟩

/-- C2 witness: `N = 8`, `W = 2`, rank 0 (shard `[0, 4)`), parameter at
world `[3, 5)` with `numel = 2`: the retained entry is
`gbuf_world = [3, 4)`, `gbuf_local = [3, 4)`, `param = [0, 1)`. -/
theorem three_way_map_invariants_witness :
    0 < (ParamRangeEntry.mk 0 ⟨3, 4⟩ ⟨3, 4⟩ ⟨0, 1⟩).param.size ∧
    (ParamRangeEntry.mk 0 ⟨3, 4⟩ ⟨3, 4⟩ ⟨0, 1⟩).param.stop ≤ 2 := by
  have h := three_way_map_invariants 8 2 0 ⟨0, 3, 5⟩ 2 ⟨0, ⟨3, 4⟩, ⟨3, 4⟩, ⟨0, 1⟩⟩
    (by decide) (by decide) (by decide) (by decide) (by decide)
  exact ⟨h.2.2.1, h.2.2.2.2.2.2⟩


/-- Bounded telescoping: if `g r = f (r+1) - f r` for all `r < n`, the sum
of `g` over `range n` is `f n - f 0`. -/
theorem telescopeSumBounded (g f : Nat → Int) (n : Nat)
    (hg : ∀ r, r < n → g r = f (r + 1) - f r) :
    ((List.range n).map g).sum = f n - f 0 := by
  induction n with
  | zero => simp
  | succ n ih =>
    rw [List.range_succ, List.map_append, List.sum_append,
      ih (fun r hr => hg r (by omega))]
    simp only [List.map_cons, List.map_nil, List.sum_cons, List.sum_nil, add_zero]
    rw [hg n (by omega)]
    ring

/-- C1, amended: the claim's formulas are what `build_model_gbuf_range`
computes (`shard_size = ⌈N/W⌉`, rank `r` gets
`[r*shard_size, min(N, (r+1)*shard_size))`), but the size clauses need the
proviso `(W-1) * shard_size ≤ N` (true whenever `W ∣ N`, and whenever
`N ≥ W*(W-1)`): then every shard before the last has size exactly
`shard_size`, the last shard is nonnegative and no longer than
`shard_size`, and the shard sizes sum to `N`.  Without the proviso the
trailing ranks receive empty or negative-sized ranges and the sum falls
short of `N`. -/
theorem world_partition_sizes (N W : Nat) (hW : 0 < W)
    (hbal : (W - 1) * maxGbufRangeSize N W ≤ N) :
    (N ≤ W * maxGbufRangeSize N W ∧ W * maxGbufRangeSize N W < N + W) ∧
    (∀ r : Nat, r < W →
      (gbufWorldAllRanges N W)[r]? = some (gbufWorldShard N W r)) ∧
    (∀ r : Nat, r + 1 < W →
      (gbufWorldShard N W r).size = maxGbufRangeSize N W) ∧
    (0 ≤ (gbufWorldShard N W (W - 1)).size ∧
      (gbufWorldShard N W (W - 1)).size ≤ maxGbufRangeSize N W) ∧
    ((gbufWorldAllRanges N W).map Range.size).sum = (N : Int) := by
  have hbounds := maxGbufRangeSize_bounds N W hW
  refine ⟨hbounds, ?_, ?_, ?_, ?_⟩
  · intro r hr
    simp [gbufWorldAllRanges, List.getElem?_map, List.getElem?_range hr]
  · intro r hr
    have key : (r + 1) * maxGbufRangeSize N W ≤ (W - 1) * maxGbufRangeSize N W :=
      Nat.mul_le_mul_right _ (by omega)
    have key2 : ((r : Int) + 1) * (maxGbufRangeSize N W : Int) ≤ (N : Int) := by
      exact_mod_cast le_trans key hbal
    have hring : ((r : Int) + 1) * (maxGbufRangeSize N W : Int) =
        (r : Int) * (maxGbufRangeSize N W : Int) + (maxGbufRangeSize N W : Int) := by
      ring
    simp only [gbufWorldShard, Range.size]
    omega
  · obtain ⟨W', rfl⟩ : ∃ W', W = W' + 1 := ⟨W - 1, by omega⟩
    simp only [Nat.add_sub_cancel] at hbal ⊢
    have h1 : ((W' : Int)) * (maxGbufRangeSize N (W' + 1) : Int) ≤ (N : Int) := by
      exact_mod_cast hbal
    have h2 : (N : Int) ≤ ((W' : Int) + 1) * (maxGbufRangeSize N (W' + 1) : Int) := by
      exact_mod_cast hbounds.1
    have hring : ((W' : Int) + 1) * (maxGbufRangeSize N (W' + 1) : Int) =
        (W' : Int) * (maxGbufRangeSize N (W' + 1) : Int) +
          (maxGbufRangeSize N (W' + 1) : Int) := by
      ring
    simp only [gbufWorldShard, Range.size]
    omega
  · rw [gbufWorldAllRanges, List.map_map,
      telescopeSumBounded (Range.size ∘ gbufWorldShard N W)
        (fun k : Nat => min (N : Int) ((k : Int) * (maxGbufRangeSize N W : Int))) W ?hg]
    case hg =>
      intro r hr
      have key : r * maxGbufRangeSize N W ≤ (W - 1) * maxGbufRangeSize N W :=
        Nat.mul_le_mul_right _ (by omega)
      have key2 : (r : Int) * (maxGbufRangeSize N W : Int) ≤ (N : Int) := by
        exact_mod_cast le_trans key hbal
      simp only [Function.comp, gbufWorldShard, Range.size]
      push_cast
      have hring : ((r : Int) + 1) * (maxGbufRangeSize N W : Int) =
          (r : Int) * (maxGbufRangeSize N W : Int) + (maxGbufRangeSize N W : Int) := by
        ring
      omega
    have hWs : (N : Int) ≤ (W : Int) * (maxGbufRangeSize N W : Int) := by
      exact_mod_cast hbounds.1
    push_cast
    omega

/-- C1 counterexample: with `N = 1`, `W = 3` the code computes
`shard_size = 1` and world ranges `[0,1), [1,1), [2,1)`: the middle shard
(not the last) has size `0 ≠ shard_size`, the last has size `-1`, and the
sizes sum to `0 ≠ N`. -/
theorem world_partition_counterexample :
    maxGbufRangeSize 1 3 = 1 ∧
    (gbufWorldAllRanges 1 3).map Range.size = [1, 0, -1] ∧
    ((gbufWorldAllRanges 1 3).map Range.size).sum ≠ (1 : Int) :=
  ⟨rfl, by decide, by decide⟩

/-- C1 witness: `N = 10`, `W = 4` (`shard_size = 3`, proviso `9 ≤ 10`
holds): shard sizes sum to `10`. -/
theorem world_partition_witness :
    ((gbufWorldAllRanges 10 4).map Range.size).sum = (10 : Int) := by
  have h := world_partition_sizes 10 4 (by decide) (by decide)
  exact_mod_cast h.2.2.2.2

/-- C7, amended: for every `N` and `W ≥ 1` the world shards of
`build_model_gbuf_range` cover `[0, N)` and are pairwise disjoint (as sets
of positions); the balance clause — all sizes differ by at most 1 and only
the last shard is shorter — holds exactly under the proviso
`W * shard_size ≤ N + 1` (i.e. `N mod W ∈ {0, W-1}`); in general the
trailing shards may fall short by more than 1. -/
theorem partition_cover_disjoint (N W : Nat) (hW : 0 < W) :
    (∀ x : Int, (0 ≤ x ∧ x < (N : Int)) ↔
      ∃ r : Nat, r < W ∧ (gbufWorldShard N W r).start ≤ x ∧
        x < (gbufWorldShard N W r).stop) ∧
    (∀ r1 r2 : Nat, r1 < W → r2 < W → r1 ≠ r2 → ∀ x : Int,
      (gbufWorldShard N W r1).start ≤ x → x < (gbufWorldShard N W r1).stop →
      ¬ ((gbufWorldShard N W r2).start ≤ x ∧ x < (gbufWorldShard N W r2).stop)) ∧
    (W * maxGbufRangeSize N W ≤ N + 1 →
      (∀ r : Nat, r + 1 < W →
        (gbufWorldShard N W r).size = maxGbufRangeSize N W) ∧
      ∀ r : Nat, r < W →
        (maxGbufRangeSize N W : Int) - 1 ≤ (gbufWorldShard N W r).size ∧
        (gbufWorldShard N W r).size ≤ maxGbufRangeSize N W) := by
  have hbounds := maxGbufRangeSize_bounds N W hW
  refine ⟨?_, ?_, ?_⟩
  · intro x
    constructor
    · rintro ⟨hx0, hxN⟩
      have hspos : 0 < maxGbufRangeSize N W := by
        rcases Nat.eq_zero_or_pos (maxGbufRangeSize N W) with h0 | h
        · exfalso
          rw [h0, Nat.mul_zero] at hbounds
          omega
        · exact h
      have hx : ((x.toNat : Int)) = x := Int.toNat_of_nonneg hx0
      have hdm := Nat.div_add_mod x.toNat (maxGbufRangeSize N W)
      have hml := Nat.mod_lt x.toNat hspos
      set q := x.toNat / maxGbufRangeSize N W with hq
      have hcomm : maxGbufRangeSize N W * q = q * maxGbufRangeSize N W := by ring
      have hxnN : x.toNat < N := by omega
      have hqW : q < W := by
        have h1 : q * maxGbufRangeSize N W < W * maxGbufRangeSize N W := by omega
        exact Nat.lt_of_mul_lt_mul_right h1
      have h2 : (q : Int) * (maxGbufRangeSize N W : Int) ≤ ((x.toNat : Int)) := by
        exact_mod_cast show q * maxGbufRangeSize N W ≤ x.toNat by omega
      have h3 : ((x.toNat : Int)) <
          (q : Int) * (maxGbufRangeSize N W : Int) + (maxGbufRangeSize N W : Int) := by
        exact_mod_cast show x.toNat < q * maxGbufRangeSize N W + maxGbufRangeSize N W by
          omega
      rw [hx] at h2 h3
      exact ⟨q, hqW, by simpa [gbufWorldShard] using h2,
        by simp only [gbufWorldShard]; omega⟩
    · rintro ⟨r, hrW, h1, h2⟩
      simp only [gbufWorldShard] at h1 h2
      have hpos : (0 : Int) ≤ (r : Int) * (maxGbufRangeSize N W : Int) := by positivity
      omega
  · intro r1 r2 h1W h2W hne x ha hb
    rintro ⟨hc, hd⟩
    rcases Nat.lt_or_ge r1 r2 with h | h
    · have := gbufWorldShard_stop_le_start N W h
      omega
    · have hlt : r2 < r1 := by omega
      have := gbufWorldShard_stop_le_start N W hlt
      omega
  · intro hb1
    by_cases hs0 : maxGbufRangeSize N W = 0
    · rw [hs0, Nat.mul_zero] at hbounds
      have hN0 : N = 0 := by omega
      have hz : (maxGbufRangeSize N W : Int) = 0 := by exact_mod_cast hs0
      have hNz : (N : Int) = 0 := by exact_mod_cast hN0
      constructor <;> intro r hr <;>
      · simp only [gbufWorldShard, Range.size, hz, hNz, mul_zero, add_zero]
        omega
    · have hs1 : 1 ≤ maxGbufRangeSize N W := by omega
      constructor
      · intro r hr
        have h4 : ((r + 1) + 1) * maxGbufRangeSize N W ≤ W * maxGbufRangeSize N W :=
          Nat.mul_le_mul_right _ (by omega)
        have h5 : ((r + 1) + 1) * maxGbufRangeSize N W =
            (r + 1) * maxGbufRangeSize N W + maxGbufRangeSize N W := by ring
        have key : ((r : Int) + 1) * (maxGbufRangeSize N W : Int) ≤ (N : Int) := by
          exact_mod_cast show (r + 1) * maxGbufRangeSize N W ≤ N by omega
        have hring : ((r : Int) + 1) * (maxGbufRangeSize N W : Int) =
            (r : Int) * (maxGbufRangeSize N W : Int) + (maxGbufRangeSize N W : Int) := by
          ring
        simp only [gbufWorldShard, Range.size]
        omega
      · intro r hr
        have h4 : (r + 1) * maxGbufRangeSize N W ≤ W * maxGbufRangeSize N W :=
          Nat.mul_le_mul_right _ (by omega)
        have key : ((r : Int) + 1) * (maxGbufRangeSize N W : Int) ≤ (N : Int) + 1 := by
          exact_mod_cast show (r + 1) * maxGbufRangeSize N W ≤ N + 1 by omega
        have hring : ((r : Int) + 1) * (maxGbufRangeSize N W : Int) =
            (r : Int) * (maxGbufRangeSize N W : Int) + (maxGbufRangeSize N W : Int) := by
          ring
        simp only [gbufWorldShard, Range.size]
        omega

/-- C7 counterexample: with `N = 9`, `W = 4` (`shard_size = 3`) the shard
sizes are `[3, 3, 3, 0]`: two of them differ by `3`, refuting "sizes
differ by at most 1" (the claim quantifies over every `N`, `W`, including
`N` not divisible by `W`). -/
theorem partition_balance_counterexample :
    maxGbufRangeSize 9 4 = 3 ∧
    (gbufWorldAllRanges 9 4).map Range.size = [3, 3, 3, 0] ∧
    ¬ List.Pairwise (fun a b : Int => a - b ≤ 1 ∧ b - a ≤ 1)
      ((gbufWorldAllRanges 9 4).map Range.size) :=
  ⟨rfl, by decide, by decide⟩

/-- C7 witness: `N = 7`, `W = 4` satisfies the proviso (`4 * 2 ≤ 8`); the
last shard `[6, 7)` is one shorter than `shard_size`, within the allowed
slack. -/
theorem partition_cover_witness :
    (maxGbufRangeSize 7 4 : Int) - 1 ≤ (gbufWorldShard 7 4 3).size ∧
    (gbufWorldShard 7 4 3).size ≤ maxGbufRangeSize 7 4 :=
  ((partition_cover_disjoint 7 4 (by decide)).2.2 (by decide)).2 3 (by decide)

/-- `buildParamRangeEntry` written out as a single conditional, for case
analysis. -/
theorem buildParamRangeEntry_eq (L : Range) (pwi : ParamWorldIndex) :
    buildParamRangeEntry L pwi =
      if max 0 (pwi.world_start - L.start) <
          min L.size (pwi.world_end - L.start) then
        some ⟨pwi.world_order,
          ⟨max 0 (pwi.world_start - L.start) + L.start,
            max 0 (pwi.world_start - L.start) + L.start +
              (min L.size (pwi.world_end - L.start) -
                max 0 (pwi.world_start - L.start))⟩,
          ⟨max 0 (pwi.world_start - L.start),
            min L.size (pwi.world_end - L.start)⟩,
          ⟨max 0 (L.start - pwi.world_start),
            max 0 (L.start - pwi.world_start) +
              (min L.size (pwi.world_end - L.start) -
                max 0 (pwi.world_start - L.start))⟩⟩
      else none := rfl

/-- Induction step machinery for C3: after visiting ranks `r, …, W-1` the
slices starting from `coverMark r` tile the rest of the parameter. -/
theorem paramSlices_aux (N W : Nat) (pwi : ParamWorldIndex) (hW : 0 < W)
    (h0 : 0 ≤ pwi.world_start) (hwe : pwi.world_start ≤ pwi.world_end)
    (hN : pwi.world_end ≤ (N : Int)) :
    ∀ k r, r + k = W →
      coversExactly
        (coverMark N W pwi.world_start pwi.world_end r - pwi.world_start)
        (pwi.world_end - pwi.world_start)
        ((List.range' r k).filterMap fun i =>
          (buildParamRangeEntry (gbufWorldShard N W i) pwi).map (·.param)) = true := by
  have hbounds := maxGbufRangeSize_bounds N W hW
  have hWs : (N : Int) ≤ (W : Int) * (maxGbufRangeSize N W : Int) := by
    exact_mod_cast hbounds.1
  intro k
  induction k with
  | zero =>
    intro r hr
    obtain rfl : r = W := by omega
    simp only [List.range', List.filterMap_nil, coversExactly, beq_iff_eq,
      decide_eq_true_eq, coverMark]
    omega
  | succ k ih =>
    intro r hr
    have hlink : ((r + 1 : Nat) : Int) * (maxGbufRangeSize N W : Int) =
        (r : Int) * (maxGbufRangeSize N W : Int) + (maxGbufRangeSize N W : Int) := by
      push_cast
      ring
    rw [List.range'_succ r k 1, List.filterMap_cons, buildParamRangeEntry_eq]
    by_cases hcond : max 0 (pwi.world_start - (gbufWorldShard N W r).start) <
        min (gbufWorldShard N W r).size (pwi.world_end - (gbufWorldShard N W r).start)
    · rw [if_pos hcond]
      simp only [Option.map_some, coversExactly, Bool.and_eq_true, beq_iff_eq,
        decide_eq_true_eq]
      simp only [gbufWorldShard, Range.size] at hcond ⊢
      refine ⟨⟨?_, ?_⟩, ?_⟩
      · simp only [coverMark]
        omega
      · simp only [coverMark]
        omega
      · have hstop : max 0 ((r : Int) * (maxGbufRangeSize N W : Int) - pwi.world_start) +
            (min (min (N : Int) ((r : Int) * (maxGbufRangeSize N W : Int) +
                  (maxGbufRangeSize N W : Int)) -
                (r : Int) * (maxGbufRangeSize N W : Int))
              (pwi.world_end - (r : Int) * (maxGbufRangeSize N W : Int)) -
              max 0 (pwi.world_start - (r : Int) * (maxGbufRangeSize N W : Int))) =
            coverMark N W pwi.world_start pwi.world_end (r + 1) - pwi.world_start := by
          simp only [coverMark]
          omega
        rw [hstop]
        exact ih (r + 1) (by omega)
    · rw [if_neg hcond]
      simp only [Option.map_none']
      simp only [gbufWorldShard, Range.size] at hcond
      have heq : coverMark N W pwi.world_start pwi.world_end r =
          coverMark N W pwi.world_start pwi.world_end (r + 1) := by
        simp only [coverMark]
        omega
      rw [heq]
      exact ih (r + 1) (by omega)

/-- C3: cross-participant coverage.  For a parameter whose world range
`[ws, we)` lies inside `[0, N)`, the `param` slices produced for it across
all `W` participants (each rank taking its shard of the world partition,
in ascending rank order) tile `[0, numel)` — `numel = we - ws` — exactly:
no overlap, no gap, every emitted slice nonempty. -/
theorem param_coverage (N W : Nat) (pwi : ParamWorldIndex) (hW : 0 < W)
    (h0 : 0 ≤ pwi.world_start) (hwe : pwi.world_start ≤ pwi.world_end)
    (hN : pwi.world_end ≤ (N : Int)) :
    coversExactly 0 (pwi.world_end - pwi.world_start) (paramSlices N W pwi) = true := by
  have haux := paramSlices_aux N W pwi hW h0 hwe hN W 0 (by omega)
  have hcm : coverMark N W pwi.world_start pwi.world_end 0 = pwi.world_start := by
    simp only [coverMark]
    push_cast
    omega
  rw [hcm, sub_self] at haux
  rw [paramSlices, gbufWorldAllRanges, List.filterMap_map, List.range_eq_range']
  simpa [Function.comp] using haux

/-- C3 witness: `N = 12`, `W = 3` (shards `[0,4), [4,8), [8,12)`), one
parameter at world `[2, 11)` spanning all three shards: it contributes
exactly three `param` slices, `[0,2) [2,6) [6,9)`, which concatenate to
`[0, 9) = [0, numel)`. -/
theorem param_coverage_witness :
    (paramSlices 12 3 ⟨0, 2, 11⟩).length = 3 ∧
    coversExactly 0 9 (paramSlices 12 3 ⟨0, 2, 11⟩) = true := by
  refine ⟨by decide, ?_⟩
  have h := param_coverage 12 3 ⟨0, 2, 11⟩ (by decide) (by decide) (by decide) (by decide)
  simpa using h

/-- A retained map entry carries the parameter's `world_order` unchanged. -/
theorem buildParamRangeEntry_order (L : Range) (pwi : ParamWorldIndex)
    (e : ParamRangeEntry) (h : buildParamRangeEntry L pwi = some e) :
    e.gbuf_world_order = pwi.world_order := by
  rw [buildParamRangeEntry_eq] at h
  split at h
  · injection h with h
    subst h
    rfl
  · exact absurd h (by simp)

/-- The emitted world-order sequence is a sublist of the index map's
world-order sequence (in insertion order). -/
theorem state_dict_world_orders_sublist (indexMap : List (Nat × ParamWorldIndex))
    (L : Range) :
    List.Sublist (state_dict_world_orders indexMap L)
      (indexMap.map (·.2.world_order)) := by
  induction indexMap with
  | nil => simp [state_dict_world_orders, build_model_gbuf_param_range_map]
  | cons x xs ih =>
    simp only [state_dict_world_orders, build_model_gbuf_param_range_map,
      List.filterMap_cons, List.map_cons] at ih ⊢
    cases h : buildParamRangeEntry L x.2 with
    | none => exact ih.cons _
    | some e =>
      simp only [Option.map_some', List.map_cons]
      rw [buildParamRangeEntry_order L x.2 e h]
      exact ih.cons₂ _

/-- C4, amended: `state_dict` walks `param_map.items()` in dict insertion
order — there is no sort by `gbuf_world_order` — so the emitted
`world_order` sequence for a buffer is strictly increasing exactly when
the buffer's parameter index map was inserted in increasing `world_order`
(as the DDP layer does), not regardless of the insertion order. -/
theorem state_dict_order_follows_index_map (indexMap : List (Nat × ParamWorldIndex))
    (L : Range)
    (him : List.Pairwise (· < ·) (indexMap.map (·.2.world_order))) :
    List.Pairwise (· < ·) (state_dict_world_orders indexMap L) :=
  him.sublist (state_dict_world_orders_sublist indexMap L)

/-- C4 counterexample: an index map inserted in decreasing world order
(order 1 at world `[0,2)`, order 0 at world `[2,4)`), one rank (`N = 4`,
`W = 1`): `state_dict` emits world orders `[1, 0]`, not strictly
increasing. -/
theorem state_dict_order_counterexample :
    state_dict_world_orders [(0, ⟨1, 0, 2⟩), (1, ⟨0, 2, 4⟩)]
        (gbufWorldShard 4 1 0) = [1, 0] ∧
    ¬ List.Pairwise (· < ·)
      (state_dict_world_orders [(0, ⟨1, 0, 2⟩), (1, ⟨0, 2, 4⟩)]
        (gbufWorldShard 4 1 0)) :=
  ⟨by decide, by decide⟩

/-- C4 witness: the same buffer with the index map inserted in increasing
world order yields a strictly increasing emission. -/
theorem state_dict_order_witness :
    List.Pairwise (· < ·)
      (state_dict_world_orders [(0, ⟨0, 0, 2⟩), (1, ⟨1, 2, 4⟩)]
        (gbufWorldShard 4 1 0)) :=
  state_dict_order_follows_index_map _ _ (by decide)

/-- All-supported groups make `buildGroup` succeed. -/
theorem buildGroup_ok (paramRange : Nat → Range) (g : List ModelParam)
    (hsup : ∀ p ∈ g, p.ttype = .cudaHalf ∨ p.ttype = .cudaBFloat16 ∨
      p.ttype = .cudaFloat) :
    ∃ x, buildGroup paramRange g = .ok x := by
  induction g with
  | nil => exact ⟨_, rfl⟩
  | cons p ps ih =>
    obtain ⟨x, hx⟩ := ih fun q hq => hsup q (List.mem_cons_of_mem _ hq)
    obtain ⟨a, b, c, d, e⟩ := x
    rcases hsup p (List.mem_cons_self _ _) with h | h | h <;>
    · simp only [buildGroup, h, hx]
      exact ⟨_, rfl⟩

/-- C9: what the unsupported-dtype branch actually does.  A parameter
whose type is neither half, bfloat16 nor float32 makes
`build_model_and_main_param_groups` fail — but with a `NameError` (the
error message evaluates the unbound name `param`), so the received type is
never reported and no `TypeError`/`UnsupportedDtype` carrying it is
raised; parameters of the three supported types never reach that branch. -/
theorem unsupported_dtype_name_error :
    (∀ t : PyTensorType, t ≠ .cudaHalf → t ≠ .cudaBFloat16 → t ≠ .cudaFloat →
      ∀ (pid : Nat) (pr : Nat → Range),
        build_model_and_main_param_groups pr [[⟨pid, t⟩]] =
          .error .nameErrorParamUnbound) ∧
    (∀ (gs : List (List ModelParam)) (pr : Nat → Range),
      (∀ g ∈ gs, ∀ p ∈ g, p.ttype = .cudaHalf ∨ p.ttype = .cudaBFloat16 ∨
        p.ttype = .cudaFloat) →
      ∃ res, build_model_and_main_param_groups pr gs = .ok res) := by
  constructor
  · intro t h1 h2 h3 pid pr
    cases t
    · exact absurd rfl h1
    · exact absurd rfl h2
    · exact absurd rfl h3
    · rfl
    · rfl
  · intro gs pr
    induction gs with
    | nil => exact fun _ => ⟨_, rfl⟩
    | cons g gs ih =>
      intro hsup
      obtain ⟨res, hres⟩ := ih fun g' hg' => hsup g' (List.mem_cons_of_mem _ hg')
      obtain ⟨x, hx⟩ := buildGroup_ok pr g (hsup g (List.mem_cons_self _ _))
      obtain ⟨a, b, c, d, e⟩ := x
      simp only [build_model_and_main_param_groups, hx, hres]
      exact ⟨_, rfl⟩

/-- C9 witness: a `torch.cuda.DoubleTensor` parameter trips the branch and
produces the `NameError`; a half parameter constructs fine. -/
theorem unsupported_dtype_name_error_witness :
    build_model_and_main_param_groups (fun _ => ⟨0, 4⟩) [[⟨7, .cudaDouble⟩]] =
      .error .nameErrorParamUnbound ∧
    ∃ res, build_model_and_main_param_groups (fun _ => ⟨0, 4⟩) [[⟨7, .cudaHalf⟩]] =
      .ok res :=
  ⟨unsupported_dtype_name_error.1 .cudaDouble (by decide) (by decide) (by decide) 7 _,
    unsupported_dtype_name_error.2 [[⟨7, .cudaHalf⟩]] _ (by decide)⟩

/-- C10: the reverse map is inconsistent with the rewritten groups.  One
parameter group `[p0: bfloat16, p1: float32]`, both fully owned locally:
`model_param_group_index_map` records `p0 ↦ (0, 0)` and `p1 ↦ (0, 1)`
(insertion order), but the rewritten parameter list places the fp32 shard
of `p1` first (`shard_fp32 ++ shard_fp32_from_float16`), so
`optimizer.param_groups[0]["params"][0]` is `p1`'s shard view — not the
master shard created from `p0` that `state_dict` expects to find there. -/
theorem reverse_map_mismatch :
    distributedOptimizerParamGroups
        [[⟨0, .cudaBFloat16⟩, ⟨1, .cudaFloat⟩]]
        [⟨0, .cudaBFloat16⟩, ⟨1, .cudaFloat⟩]
        (fun _ => ⟨0, 4⟩) =
      .ok ([(⟨0, .cudaBFloat16⟩, 0, 0), (⟨1, .cudaFloat⟩, 0, 1)],
        [[.view 1 ⟨0, 4⟩, .master 0 ⟨0, 4⟩]]) ∧
    ShardTensor.sourceParam (.view 1 ⟨0, 4⟩) ≠
      (ModelParam.mk 0 PyTensorType.cudaBFloat16).pid :=
  ⟨rfl, by decide⟩

/-- Writing a shard then reading the same slot yields the new value. -/
theorem getAt_setAt_self (g : ShardGroups) (i j : Nat) (v dst : List Int)
    (h : getAt g i j = some dst) : getAt (setAt g i j v) i j = some v := by
  unfold getAt at h
  cases hrow : g[i]? with
  | none => rw [hrow] at h; simp at h
  | some row =>
    rw [hrow] at h
    simp only [Option.some_bind] at h
    have hi : i < g.length := by
      rw [List.getElem?_eq_some] at hrow
      exact hrow.1
    have hj : j < row.length := by
      rw [List.getElem?_eq_some] at h
      exact h.1
    simp only [getAt, setAt, hrow]
    simp [List.getElem?_set_eq_of_lt _ hi, List.getElem?_set_eq_of_lt _ hj]

/-- Writing a shard leaves every other slot unchanged. -/
theorem getAt_setAt_ne (g : ShardGroups) (i j i' j' : Nat) (v : List Int)
    (h : ¬(i = i' ∧ j = j')) : getAt (setAt g i j v) i' j' = getAt g i' j' := by
  unfold setAt
  cases hrow : g[i]? with
  | none => rfl
  | some row =>
    by_cases hii : i = i'
    · subst hii
      have hne : j ≠ j' := fun hj => h ⟨rfl, hj⟩
      have hi : i < g.length := by
        rw [List.getElem?_eq_some] at hrow
        exact hrow.1
      simp [getAt, List.getElem?_set_eq_of_lt _ hi, hrow, List.getElem?_set_ne hne]
    · simp [getAt, List.getElem?_set_ne hii]

/-- A successful non-broadcast copy stores the source at the target slot. -/
theorem copyInto_ok_getAt (g : ShardGroups) (i j : Nat) (src : List Int)
    (g' : ShardGroups) (h : copyInto g i j src = .ok g')
    (hlen : src.length ≠ 1) : getAt g' i j = some src := by
  cases hdst : getAt g i j with
  | none =>
    simp only [copyInto, hdst] at h
    exact Except.noConfusion h
  | some dst =>
    simp only [copyInto, hdst] at h
    by_cases hsl : src.length = dst.length
    · rw [if_pos hsl] at h
      injection h with h
      subst h
      exact getAt_setAt_self g i j src dst hdst
    · rw [if_neg hsl] at h
      rcases src with _ | ⟨v, _ | ⟨w, tl⟩⟩
      · exact Except.noConfusion h
      · exact absurd rfl hlen
      · exact Except.noConfusion h

/-- A successful copy leaves every other slot unchanged. -/
theorem copyInto_ok_getAt_ne (g : ShardGroups) (i j i' j' : Nat) (src : List Int)
    (g' : ShardGroups) (h : copyInto g i j src = .ok g')
    (hne : ¬(i = i' ∧ j = j')) : getAt g' i' j' = getAt g i' j' := by
  cases hdst : getAt g i j with
  | none =>
    simp only [copyInto, hdst] at h
    exact Except.noConfusion h
  | some dst =>
    simp only [copyInto, hdst] at h
    by_cases hsl : src.length = dst.length
    · rw [if_pos hsl] at h
      injection h with h
      subst h
      exact getAt_setAt_ne g i j i' j' src hne
    · rw [if_neg hsl] at h
      rcases src with _ | ⟨v, _ | ⟨w, tl⟩⟩
      · exact Except.noConfusion h
      · injection h with h
        subst h
        exact getAt_setAt_ne g i j i' j' _ hne
      · exact Except.noConfusion h

/-- On an error-free run the collected `(state_order, optim)` pairs are
exactly the records' pairs, in record order. -/
theorem loadLoop_acc (l : List ShardStateDict) :
    ∀ (g : ShardGroups) (acc : List (Nat × Nat)),
    (loadLoop l g acc).2.2 = none →
    (loadLoop l g acc).2.1 = acc ++ l.map fun r => (r.state_order, r.optim) := by
  induction l with
  | nil => intro g acc _; simp [loadLoop]
  | cons r rs ih =>
    intro g acc herr
    simp only [loadLoop] at herr ⊢
    cases hc : copyInto g r.group_index r.group_order r.param with
    | error e =>
      simp only [hc] at herr
      exact Option.noConfusion herr
    | ok g' =>
      simp only [hc] at herr ⊢
      rw [ih g' _ herr]
      simp

/-- Records that never target slot `(i, j)` leave it unchanged. -/
theorem loadLoop_untouched (l : List ShardStateDict) :
    ∀ (g : ShardGroups) (acc : List (Nat × Nat)) (i j : Nat),
    (∀ r ∈ l, ¬(r.group_index = i ∧ r.group_order = j)) →
    getAt (loadLoop l g acc).1 i j = getAt g i j := by
  induction l with
  | nil => intro g acc i j _; rfl
  | cons r rs ih =>
    intro g acc i j hall
    simp only [loadLoop]
    cases hc : copyInto g r.group_index r.group_order r.param with
    | error e => simp only [hc]
    | ok g' =>
      simp only [hc]
      rw [ih g' _ i j fun r' hr' => hall r' (List.mem_cons_of_mem _ hr')]
      exact copyInto_ok_getAt_ne g _ _ i j _ g' hc (hall r (List.mem_cons_self _ _))

/-- On an error-free run with pairwise-distinct targets, every record's
master param ends up at its `(group_index, group_order)` slot. -/
theorem loadLoop_copy (l : List ShardStateDict) :
    ∀ (g : ShardGroups) (acc : List (Nat × Nat)),
    (loadLoop l g acc).2.2 = none →
    (l.map fun r => (r.group_index, r.group_order)).Nodup →
    (∀ r ∈ l, r.param.length ≠ 1) →
    ∀ r ∈ l, getAt (loadLoop l g acc).1 r.group_index r.group_order =
      some r.param := by
  induction l with
  | nil => intro g acc _ _ _ r hr; exact absurd hr (List.not_mem_nil r)
  | cons x xs ih =>
    intro g acc herr hnodup hlen r hr
    simp only [loadLoop] at herr ⊢
    cases hc : copyInto g x.group_index x.group_order x.param with
    | error e =>
      simp only [hc] at herr
      exact Option.noConfusion herr
    | ok g' =>
      simp only [hc] at herr ⊢
      rw [List.map_cons, List.nodup_cons] at hnodup
      rcases List.mem_cons.mp hr with rfl | hmem
      · have huntouched : ∀ r' ∈ xs,
            ¬(r'.group_index = r.group_index ∧ r'.group_order = r.group_order) := by
          intro r' hr' hcon
          have hm : (r'.group_index, r'.group_order) ∈
              xs.map fun q => (q.group_index, q.group_order) :=
            List.mem_map_of_mem _ hr'
          rw [hcon.1, hcon.2] at hm
          exact hnodup.1 hm
        rw [loadLoop_untouched xs g' _ _ _ huntouched]
        exact copyInto_ok_getAt g _ _ _ g' hc (hlen r (List.mem_cons_self _ _))
      · exact ih g' _ herr hnodup.2
          (fun r' hr' => hlen r' (List.mem_cons_of_mem _ hr')) r hmem

/-- The record loop splits over list append: the suffix runs on the
prefix's state only when the prefix raised no exception. -/
theorem loadLoop_append (xs ys : List ShardStateDict) :
    ∀ (g : ShardGroups) (acc : List (Nat × Nat)),
    loadLoop (xs ++ ys) g acc =
      match loadLoop xs g acc with
      | (g1, a1, none) => loadLoop ys g1 a1
      | (g1, a1, some e) => (g1, a1, some e) := by
  induction xs with
  | nil => intro g acc; rfl
  | cons x xs ih =>
    intro x' acc
    simp only [List.cons_append, loadLoop]
    cases hc : copyInto x' x.group_index x.group_order x.param with
    | error e => simp only [hc]
    | ok g' => simp only [hc]; exact ih g' _

/-- Python `enumerate` reconstructs lists whose keys are already
consecutive from `k`. -/
theorem enumerateFrom_of_fst (l : List (Nat × Nat)) :
    ∀ k, l.map Prod.fst = (List.range l.length).map (· + k) →
    enumerateFrom k (l.map Prod.snd) = l := by
  induction l with
  | nil => intro k _; rfl
  | cons x xs ih =>
    intro k h
    simp only [List.map_cons, List.length_cons, List.range_succ_eq_map,
      List.map_map] at h
    injection h with h1 h2
    simp only [List.map_cons, enumerateFrom]
    have h2' : xs.map Prod.fst = (List.range xs.length).map (· + (k + 1)) := by
      rw [h2]
      apply List.map_congr_left
      intro a _
      simp only [Function.comp]
      omega
    rw [ih (k + 1) h2']
    have hx : x = (k, x.2) := by
      have h1' : x.1 = k := by omega
      exact Prod.ext h1' rfl
    rw [← hx]

/-- Sorting pairs whose keys are a permutation of `range n` produces the
keys `0, 1, …, n-1` in order. -/
theorem insertionSort_fst_range (acc : List (Nat × Nat))
    (hperm : List.Perm (acc.map Prod.fst) (List.range acc.length)) :
    (List.insertionSort stateKeyLe acc).map Prod.fst = List.range acc.length := by
  apply List.eq_of_perm_of_sorted (r := (· ≤ ·))
  · exact ((List.perm_insertionSort stateKeyLe acc).map Prod.fst).trans hperm
  · exact List.Pairwise.map Prod.fst (fun a b hab => hab)
      (List.sorted_insertionSort stateKeyLe acc)
  · exact (List.pairwise_lt_range _).imp le_of_lt

/-- C5, amended: `load_state_dict` sorts the shard records by their saved
`state_order` and copies each saved `master_param` into
`shard_fp32_from_float16_groups[group_index][group_order]`, but the state
mapping handed to the base optimizer is keyed by the consecutive positions
`0, …, n-1` of the sorted order (`enumerate`), not by the saved
`state_order` values themselves; the two keyings coincide exactly when the
saved `state_order` values are the consecutive integers `0, …, n-1` (the
base optimizer's own convention), and then each record's inner state sits
under its `state_order` key. -/
theorem load_rekeys_sorted (tgt : ShardGroups) (records : List ShardStateDict)
    (hperm : List.Perm (records.map ShardStateDict.state_order)
      (List.range records.length))
    (hok : (load_state_dict tgt records).err = none)
    (hnodup : (records.map fun r => (r.group_index, r.group_order)).Nodup)
    (hlen : ∀ r ∈ records, r.param.length ≠ 1) :
    (load_state_dict tgt records).baseState.map Prod.fst =
      List.range records.length ∧
    List.Perm (load_state_dict tgt records).baseState
      (records.map fun r => (r.state_order, r.optim)) ∧
    ∀ r ∈ records,
      getAt (load_state_dict tgt records).groups r.group_index r.group_order =
        some r.param := by
  rcases hloop : loadLoop records tgt [] with ⟨g', acc, e⟩
  cases e with
  | some e' =>
    simp only [load_state_dict, hloop] at hok
    exact Option.noConfusion hok
  | none =>
    have herr : (loadLoop records tgt []).2.2 = none := by rw [hloop]
    have hacc : acc = records.map fun r => (r.state_order, r.optim) := by
      have hl := loadLoop_acc records tgt [] herr
      rw [hloop] at hl
      simpa using hl
    have hgroups : (load_state_dict tgt records).groups = g' := by
      simp only [load_state_dict, hloop]
    have hbase : (load_state_dict tgt records).baseState =
        enumerateFrom 0 ((List.insertionSort stateKeyLe acc).map Prod.snd) := by
      simp only [load_state_dict, hloop]
    have hfst : acc.map Prod.fst = records.map ShardStateDict.state_order := by
      rw [hacc]
      simp [List.map_map, Function.comp]
    have hlena : acc.length = records.length := by
      rw [hacc]
      simp
    have hkeys : (List.insertionSort stateKeyLe acc).map Prod.fst =
        List.range acc.length := by
      apply insertionSort_fst_range
      rw [hfst, hlena]
      exact hperm
    have hsortlen : (List.insertionSort stateKeyLe acc).length = acc.length :=
      (List.perm_insertionSort stateKeyLe acc).length_eq
    have hbase2 : (load_state_dict tgt records).baseState =
        List.insertionSort stateKeyLe acc := by
      rw [hbase]
      apply enumerateFrom_of_fst
      rw [hkeys, hsortlen]
      simp
    refine ⟨?_, ?_, ?_⟩
    · rw [hbase2, hkeys, hlena]
    · rw [hbase2, ← hacc]
      exact List.perm_insertionSort stateKeyLe acc
    · intro r hr
      rw [hgroups]
      have hcp := loadLoop_copy records tgt [] herr hnodup hlen r hr
      rw [hloop] at hcp
      exact hcp

/-- C5 counterexample: two records saved with `state_order` values
`[2, 0]`: `load_state_dict` hands the base optimizer the mapping keyed
`[0, 1]` (sorted position), not `[0, 2]` — the key `2` does not appear, so
the mapping is not keyed by the saved `state_order` values when those are
not consecutive. -/
theorem load_rekey_counterexample :
    ([⟨0, 2, 0, 0, ⟨0, ⟨0, 0⟩, ⟨0, 0⟩, ⟨0, 0⟩⟩, [5, 5], 10⟩,
      ⟨1, 0, 0, 1, ⟨0, ⟨0, 0⟩, ⟨0, 0⟩, ⟨0, 0⟩⟩, [7, 7, 7], 20⟩] :
        List ShardStateDict).map ShardStateDict.state_order = [2, 0] ∧
    (load_state_dict [[[0, 0], [1, 1, 1]]]
      [⟨0, 2, 0, 0, ⟨0, ⟨0, 0⟩, ⟨0, 0⟩, ⟨0, 0⟩⟩, [5, 5], 10⟩,
       ⟨1, 0, 0, 1, ⟨0, ⟨0, 0⟩, ⟨0, 0⟩, ⟨0, 0⟩⟩, [7, 7, 7], 20⟩]).baseState =
      [(0, 20), (1, 10)] ∧
    ¬ (2 ∈ ((load_state_dict [[[0, 0], [1, 1, 1]]]
      [⟨0, 2, 0, 0, ⟨0, ⟨0, 0⟩, ⟨0, 0⟩, ⟨0, 0⟩⟩, [5, 5], 10⟩,
       ⟨1, 0, 0, 1, ⟨0, ⟨0, 0⟩, ⟨0, 0⟩, ⟨0, 0⟩⟩, [7, 7, 7], 20⟩]).baseState.map
        Prod.fst)) :=
  ⟨rfl, by decide, by decide⟩

/-- C5 witness: state orders `[1, 0]` (a permutation of `0..1`): the
handed mapping is keyed `[0, 1]`, carries each record's inner state under
its own `state_order`, and both master params land in their group slots. -/
theorem load_rekeys_sorted_witness :
    (load_state_dict [[[0, 0], [1, 1, 1]]]
      [⟨0, 1, 0, 0, ⟨0, ⟨0, 0⟩, ⟨0, 0⟩, ⟨0, 0⟩⟩, [5, 5], 10⟩,
       ⟨1, 0, 0, 1, ⟨0, ⟨0, 0⟩, ⟨0, 0⟩, ⟨0, 0⟩⟩, [7, 7, 7], 20⟩]).baseState.map
        Prod.fst = List.range 2 ∧
    List.Perm (load_state_dict [[[0, 0], [1, 1, 1]]]
      [⟨0, 1, 0, 0, ⟨0, ⟨0, 0⟩, ⟨0, 0⟩, ⟨0, 0⟩⟩, [5, 5], 10⟩,
       ⟨1, 0, 0, 1, ⟨0, ⟨0, 0⟩, ⟨0, 0⟩, ⟨0, 0⟩⟩, [7, 7, 7], 20⟩]).baseState
      [(1, 10), (0, 20)] ∧
    ∀ r ∈ ([⟨0, 1, 0, 0, ⟨0, ⟨0, 0⟩, ⟨0, 0⟩, ⟨0, 0⟩⟩, [5, 5], 10⟩,
       ⟨1, 0, 0, 1, ⟨0, ⟨0, 0⟩, ⟨0, 0⟩, ⟨0, 0⟩⟩, [7, 7, 7], 20⟩] :
        List ShardStateDict),
      getAt (load_state_dict [[[0, 0], [1, 1, 1]]]
        [⟨0, 1, 0, 0, ⟨0, ⟨0, 0⟩, ⟨0, 0⟩, ⟨0, 0⟩⟩, [5, 5], 10⟩,
         ⟨1, 0, 0, 1, ⟨0, ⟨0, 0⟩, ⟨0, 0⟩, ⟨0, 0⟩⟩, [7, 7, 7], 20⟩]).groups
        r.group_index r.group_order = some r.param :=
  load_rekeys_sorted [[[0, 0], [1, 1, 1]]]
    [⟨0, 1, 0, 0, ⟨0, ⟨0, 0⟩, ⟨0, 0⟩, ⟨0, 0⟩⟩, [5, 5], 10⟩,
     ⟨1, 0, 0, 1, ⟨0, ⟨0, 0⟩, ⟨0, 0⟩, ⟨0, 0⟩⟩, [7, 7, 7], 20⟩]
    (by decide) (by decide) (by decide) (by decide)

/-- C6, amended: `load_state_dict` performs no partition check at all —
it never reads the saved `param_range_map` — so a checkpoint from a
different world size fails (if at all) only when a record's saved master
shard reaches the per-record tensor copy with the wrong element count, the
error is the copy's size mismatch (there is no dedicated
`CheckpointShapeMismatch`), and the copies performed by the records before
the failing one persist: the failure is not atomic and the optimizer state
is not left unchanged. -/
theorem load_no_shape_check (tgt : ShardGroups) (pre post : List ShardStateDict)
    (b : ShardStateDict) (dst : List Int)
    (hpre : (load_state_dict tgt pre).err = none)
    (hdst : getAt (load_state_dict tgt pre).groups b.group_index b.group_order =
      some dst)
    (hbsize : b.param.length ≠ dst.length) (hb1 : b.param.length ≠ 1) :
    load_state_dict tgt (pre ++ b :: post) =
      { groups := (load_state_dict tgt pre).groups, baseState := [],
        err := some .copySizeMismatch } := by
  rcases hloop : loadLoop pre tgt [] with ⟨g1, a1, e⟩
  cases e with
  | some e' =>
    simp only [load_state_dict, hloop] at hpre
    exact Option.noConfusion hpre
  | none =>
    have hg1 : (load_state_dict tgt pre).groups = g1 := by
      simp only [load_state_dict, hloop]
    rw [hg1] at hdst ⊢
    have hcopy : copyInto g1 b.group_index b.group_order b.param =
        .error .copySizeMismatch := by
      simp only [copyInto, hdst, if_neg hbsize]
      rcases hp : b.param with _ | ⟨v, _ | ⟨w, tl⟩⟩
      · rfl
      · rw [hp] at hb1
        exact absurd rfl hb1
      · rfl
    simp only [load_state_dict, loadLoop_append pre (b :: post) tgt [], hloop,
      loadLoop, hcopy]

/-- C6 counterexample: a two-record checkpoint whose second record's
master shard has the wrong size (as after a world-size change): loading
stops with the copy's size-mismatch error — no `CheckpointShapeMismatch`
exists in the code — and the first record's copy has already overwritten
the master shards, so the state is mutated, not left unchanged. -/
theorem load_mismatch_not_atomic :
    load_state_dict [[[0, 0], [9, 9, 9]]]
        [⟨0, 0, 0, 0, ⟨0, ⟨0, 0⟩, ⟨0, 0⟩, ⟨0, 0⟩⟩, [5, 5], 11⟩,
         ⟨1, 1, 0, 1, ⟨0, ⟨0, 0⟩, ⟨0, 0⟩, ⟨0, 0⟩⟩, [7, 7], 22⟩] =
      { groups := [[[5, 5], [9, 9, 9]]], baseState := [],
        err := some .copySizeMismatch } ∧
    ([[[5, 5], [9, 9, 9]]] : ShardGroups) ≠ [[[0, 0], [9, 9, 9]]] :=
  ⟨by decide, by decide⟩

/-- C6 witness: the amended statement at the same concrete input — the
valid first record's copy persists in the returned groups while the
second record's mismatched copy raises. -/
theorem load_no_shape_check_witness :
    load_state_dict [[[0, 0], [9, 9, 9]]]
        ([⟨0, 0, 0, 0, ⟨0, ⟨0, 0⟩, ⟨0, 0⟩, ⟨0, 0⟩⟩, [5, 5], 11⟩] ++
          ⟨1, 1, 0, 1, ⟨0, ⟨0, 0⟩, ⟨0, 0⟩, ⟨0, 0⟩⟩, [7, 7], 22⟩ :: []) =
      { groups := (load_state_dict [[[0, 0], [9, 9, 9]]]
          [⟨0, 0, 0, 0, ⟨0, ⟨0, 0⟩, ⟨0, 0⟩, ⟨0, 0⟩⟩, [5, 5], 11⟩]).groups,
        baseState := [], err := some .copySizeMismatch } :=
  load_no_shape_check [[[0, 0], [9, 9, 9]]]
    [⟨0, 0, 0, 0, ⟨0, ⟨0, 0⟩, ⟨0, 0⟩, ⟨0, 0⟩⟩, [5, 5], 11⟩] []
    ⟨1, 1, 0, 1, ⟨0, ⟨0, 0⟩, ⟨0, 0⟩, ⟨0, 0⟩⟩, [7, 7], 22⟩ [9, 9, 9]
    (by decide) (by decide) (by decide) (by decide)
